import Mathlib

/-!
# Pixel-Adaptive Convolution layers (CPPLayer / SepCPPLayer): shallow embedding

This file embeds the CPU forward/backward passes and the shape validation of
the dense pixel-adaptive convolution layer (`CPPLayer`, in
`src/caffe/layers/cpp_layer.cpp`) and its separable variant (`SepCPPLayer`, in
`src/caffe/layers/sepcpp_layer.cpp`) of the Noiredd/caffe repository, and
proves functional-correctness, frame and validation properties about them.

Modelling choices:
* The numeric template parameter `Dtype` is modelled by `ℤ` (exact
  arithmetic); the layer code uses only `Dtype(0)`, `+` and `*`.
* Blobs are flat row-major buffers, modelled as total functions `ℕ → ℤ`;
  the C++ index arithmetic (`n*count(1) + ch*count(2) + y*width + x`) is kept
  verbatim in `blobIdx`.
* The C++ `for` loops become folds over the exact iteration lists; the
  "smart" clamped-start dual-bound kernel loop
  `for (i_ker = max(padding-y,0), i_img = y-padding+i_ker; i_ker < kernel && i_img < dim; ++i_ker, ++i_img)`
  becomes `kerRun` (a `drop` for the clamped start, a `takeWhile` for the
  dual bound; note `ℕ` subtraction `padding - y` is exactly
  `std::max(padding - y, 0)`, and `i_img = y + i_ker - padding`).
* Writes through a mutable pointer become pointwise functional updates
  (`writeAt`), folded in program order.
-/

namespace CaffePAC

/-- A flat row-major numeric buffer (the contents of a `Blob`'s data or diff
pointer), modelled over exact arithmetic. -/
def Buf : Type := ℕ → ℤ

/-- A single store `buf[i] = v` through a mutable pointer. -/
def writeAt (b : Buf) (i : ℕ) (v : ℤ) : Buf := fun m => if m = i then v else b m

theorem writeAt_self (b : Buf) (i : ℕ) (v : ℤ) : writeAt b i v i = v := by
  simp [writeAt]

theorem writeAt_ne (b : Buf) (i : ℕ) (v : ℤ) {m : ℕ} (h : m ≠ i) :
    writeAt b i v m = b m := by
  simp [writeAt, h]

/-- Flat index of element `(n, ch, y, x)` of a rank-4 blob of shape
`[_, B, H, W]`: the C++ code computes `n*count(1) + ch*count(2) + (y*W + x)`
with `count(1) = B*H*W` and `count(2) = H*W`. -/
def blobIdx (B H W n ch y x : ℕ) : ℕ := n * (B * (H * W)) + ch * (H * W) + (y * W + x)

theorem blobIdx_eq (B H W n ch y x : ℕ) :
    blobIdx B H W n ch y x = (n * B + ch) * (H * W) + (y * W + x) := by
  unfold blobIdx; ring

theorem mul_add_lt {a A b B : ℕ} (ha : a < A) (hb : b < B) : a * B + b < A * B :=
  calc a * B + b < a * B + B := by omega
    _ = (a + 1) * B := by ring
    _ ≤ A * B := Nat.mul_le_mul (by omega) (le_refl B)

/-- Positional decoding: `a*W + x` with `x, x' < W` determines `a` and `x`. -/
theorem pair_inj {W a a' x x' : ℕ} (hx : x < W) (hx' : x' < W)
    (h : a * W + x = a' * W + x') : a = a' ∧ x = x' := by
  have hW : 0 < W := lt_of_le_of_lt (Nat.zero_le x) hx
  have hxx : x = x' := by
    have h1 : (a * W + x) % W = (a' * W + x') % W := by rw [h]
    rw [Nat.mul_comm a W, Nat.mul_comm a' W, Nat.mul_add_mod, Nat.mul_add_mod,
      Nat.mod_eq_of_lt hx, Nat.mod_eq_of_lt hx'] at h1
    exact h1
  subst hxx
  have h2 : a * W = a' * W := by omega
  exact ⟨Nat.eq_of_mul_eq_mul_right hW h2, rfl⟩

/-- Full decoding of `blobIdx`: channel and spatial coordinates in range
determine all four coordinates. -/
theorem blobIdx_inj {B H W n ch y x n' ch' y' x' : ℕ}
    (hch : ch < B) (hy : y < H) (hx : x < W)
    (hch' : ch' < B) (hy' : y' < H) (hx' : x' < W)
    (h : blobIdx B H W n ch y x = blobIdx B H W n' ch' y' x') :
    n = n' ∧ ch = ch' ∧ y = y' ∧ x = x' := by
  rw [blobIdx_eq, blobIdx_eq] at h
  have h1 := pair_inj (mul_add_lt hy hx) (mul_add_lt hy' hx') h
  have h2 := pair_inj hch hch' h1.1
  have h3 := pair_inj hx hx' h1.2
  exact ⟨h2.1, h2.2, h3.1, h3.2⟩

/-- Same pixel, different channel: `blobIdx` differs as soon as `H*W > 0`. -/
theorem blobIdx_inj_ch {B H W n ch ch' y x : ℕ} (hHW : 0 < H * W)
    (h : blobIdx B H W n ch y x = blobIdx B H W n ch' y x) : ch = ch' := by
  rw [blobIdx_eq, blobIdx_eq] at h
  have h2 : (n * B + ch) * (H * W) = (n * B + ch') * (H * W) := by omega
  have h3 := Nat.eq_of_mul_eq_mul_right hHW h2
  omega

/-- In-bounds predicate for one axis of the neighborhood iteration: kernel
offset `i` at output coordinate `c` touches image coordinate `c + i - P`
(i.e. `c - P + i` over ℤ), which is in bounds iff `P ≤ c + i` and
`c + i - P < d`. -/
def inB (P c d i : ℕ) : Prop := P ≤ c + i ∧ c + i - P < d

instance (P c d i : ℕ) : Decidable (inB P c d i) :=
  inferInstanceAs (Decidable (_ ∧ _))

/-- The iteration list of the C++ "smart" kernel loop
`for (i_ker = max(P-c,0), i_img = c-P+i_ker; i_ker < K && i_img < dim; ...)`:
starting the counter at `max(P-c, 0)` is dropping the first `P - c` (ℕ
subtraction) elements of `[0, K)`, and the dual bound is a `takeWhile` on
`i_img = c + i - P < dim` (the `i_ker < K` bound is the list's extent). -/
def kerRun (K P c d : ℕ) : List ℕ :=
  ((List.range K).drop (P - c)).takeWhile (fun i => decide (c + i - P < d))

theorem takeWhile_eq_filter_mono {p : ℕ → Bool} :
    ∀ {l : List ℕ}, l.Pairwise (· < ·) →
    (∀ a b, a ≤ b → p b = true → p a = true) →
    l.takeWhile p = l.filter p := by
  intro l
  induction l with
  | nil => intro _ _; rfl
  | cons a t ih =>
    intro hp hmono
    rw [List.pairwise_cons] at hp
    by_cases h : p a = true
    · rw [List.takeWhile_cons_of_pos h, List.filter_cons_of_pos h, ih hp.2 hmono]
    · rw [List.takeWhile_cons_of_neg h, List.filter_cons_of_neg h]
      have hnil : t.filter p = [] := by
        rw [List.filter_eq_nil_iff]
        intro b hb hpb
        exact h (hmono a b (le_of_lt (hp.1 b hb)) hpb)
      rw [hnil]

theorem drop_range_filter (m K : ℕ) :
    (List.range K).drop m = (List.range K).filter (fun i => decide (m ≤ i)) := by
  induction K with
  | zero => simp
  | succ k ih =>
    rw [List.range_succ, List.filter_append]
    by_cases h : m ≤ k
    · rw [List.drop_append_of_le_length (by simpa using h), ih]
      congr 1
      simp [h]
    · have h1 : (List.range k ++ [k]).length ≤ m := by simp; omega
      rw [List.drop_eq_nil_of_le h1]
      have h2 : (List.range k).filter (fun i => decide (m ≤ i)) = [] := by
        rw [List.filter_eq_nil_iff]
        intro a ha
        simp only [List.mem_range] at ha
        simp; omega
      rw [h2]
      simp; omega

/-- The smart loop visits exactly the in-bounds kernel offsets, in order. -/
theorem kerRun_eq_filter (K P c d : ℕ) :
    kerRun K P c d = (List.range K).filter (fun i => decide (inB P c d i)) := by
  unfold kerRun
  rw [drop_range_filter]
  rw [takeWhile_eq_filter_mono
    (List.Pairwise.sublist (List.filter_sublist _) (List.sorted_lt_range K))
    (by intro a b hab hpb; simp only [decide_eq_true_eq] at *; omega)]
  rw [List.filter_filter]
  apply List.filter_congr
  intro i _
  show (decide (c + i - P < d) && decide (P - c ≤ i)) = decide (inB P c d i)
  rw [Bool.and_comm, ← Bool.decide_and]
  exact decide_eq_decide.mpr (by simp only [inB]; omega)

theorem mem_kerRun {K P c d i : ℕ} : i ∈ kerRun K P c d ↔ i < K ∧ inB P c d i := by
  rw [kerRun_eq_filter]
  simp [List.mem_filter, List.mem_range]

theorem kerRun_nodup (K P c d : ℕ) : (kerRun K P c d).Nodup := by
  rw [kerRun_eq_filter]
  exact (List.nodup_range K).filter _

/-- `v += f i` accumulation: a left fold of additions is the initial value
plus the list sum. -/
theorem foldl_add_eq {α : Type} (f : α → ℤ) :
    ∀ (l : List α) (v : ℤ), l.foldl (fun acc a => acc + f a) v = v + (l.map f).sum := by
  intro l
  induction l with
  | nil => intro v; simp
  | cons a t ih => intro v; simp [ih, add_assoc]

theorem sum_map_range (K : ℕ) (f : ℕ → ℤ) :
    ((List.range K).map f).sum = ∑ i in Finset.range K, f i := by
  induction K with
  | zero => simp
  | succ k ih => rw [List.range_succ]; simp [ih, Finset.sum_range_succ]

theorem sum_map_filter_range (K : ℕ) (p : ℕ → Bool) (f : ℕ → ℤ) :
    (((List.range K).filter p).map f).sum
      = ∑ i in Finset.range K, if p i = true then f i else 0 := by
  induction K with
  | zero => simp
  | succ k ih =>
    rw [List.range_succ, List.filter_append, Finset.sum_range_succ, ← ih]
    by_cases h : p k = true <;> simp [h]

/-- Accumulating `f` over the smart loop equals the full `[0,K)` sum with
out-of-bounds terms taken as zero. -/
theorem kerRun_foldl_sum (K P c d : ℕ) (f : ℕ → ℤ) (v : ℤ) :
    (kerRun K P c d).foldl (fun acc i => acc + f i) v
      = v + ∑ i in Finset.range K, if inB P c d i then f i else 0 := by
  rw [foldl_add_eq, kerRun_eq_filter, sum_map_filter_range]
  congr 1
  apply Finset.sum_congr rfl
  intro i _
  simp

/-! ## Forward passes -/

/-- The per-pixel accumulation of `CPPLayer::Forward_cpu` (cpp_layer.cpp,
lines 82-94): `v = 0`, then over the smart row loop and the smart column
loop, `v += img[img_offset + i_img*W + j_img] * ker[n*pixels_in_kblob +
(i_ker*K + j_ker)*pixels_in_kernel + pix_offset]` with `pix_offset = y*W+x`,
`pixels_in_kblob = K*K*H*W` and `pixels_in_kernel = H*W`. -/
def cppForwardVal (C H W K P : ℕ) (img ker : Buf) (n c y x : ℕ) : ℤ :=
  (kerRun K P y H).foldl (fun v i =>
    (kerRun K P x W).foldl (fun v j =>
      v + img (blobIdx C H W n c (y + i - P) (x + j - P)) *
          ker (blobIdx (K * K) H W n (i * K + j) y x)) v) 0

/-- The per-pixel accumulation of `SepCPPLayer::Forward_cpu`
(sepcpp_layer.cpp, lines 82-98): the inner (column) loop accumulates
`temp += img * ker[horizontal channel j_ker]`, the outer (row) loop
accumulates `v += temp * ker[vertical channel K + i_ker]`; the separable
kernel blob has `2*K` channels. -/
def sepForwardVal (C H W K P : ℕ) (img ker : Buf) (n c y x : ℕ) : ℤ :=
  (kerRun K P y H).foldl (fun v i =>
    v + ((kerRun K P x W).foldl (fun temp j =>
          temp + img (blobIdx C H W n c (y + i - P) (x + j - P)) *
                 ker (blobIdx (2 * K) H W n j y x)) 0) *
        ker (blobIdx (2 * K) H W n (K + i) y x)) 0

/-- The `n, c, y, x` loop nest shared by both forward passes: for every
batch element, channel and pixel, store the per-pixel value `F n c y x` at
`out[img_offset + pix_offset]`. -/
def pixelPass (N C H W : ℕ) (F : ℕ → ℕ → ℕ → ℕ → ℤ) (out : Buf) : Buf :=
  (List.range N).foldl (fun b n =>
    (List.range C).foldl (fun b c =>
      (List.range H).foldl (fun b y =>
        (List.range W).foldl (fun b x =>
          writeAt b (blobIdx C H W n c y x) (F n c y x)) b) b) b) out

/-- `CPPLayer::Forward_cpu` as a whole-buffer transformer. -/
def CPPForward (N C H W K P : ℕ) (img ker out : Buf) : Buf :=
  pixelPass N C H W (cppForwardVal C H W K P img ker) out

/-- `SepCPPLayer::Forward_cpu` as a whole-buffer transformer. -/
def SepCPPForward (N C H W K P : ℕ) (img ker out : Buf) : Buf :=
  pixelPass N C H W (sepForwardVal C H W K P img ker) out

/-! ## Generic lemmas about folds of buffer writes -/

theorem foldl_untouched {β : Type} (g : Buf → β → Buf) (m : ℕ) :
    ∀ (l : List β), (∀ b a, a ∈ l → g b a m = b m) →
    ∀ b : Buf, (l.foldl g b) m = b m := by
  intro l
  induction l with
  | nil => intro _ b; rfl
  | cons a t ih =>
    intro h b
    rw [List.foldl_cons, ih (fun b1 a1 ha1 => h b1 a1 (List.mem_cons_of_mem a ha1))]
    exact h b a (List.mem_cons_self a t)

/-- If exactly one element of a duplicate-free iteration list writes to
location `m`, and it writes the buffer-independent value `v`, then after the
fold location `m` holds `v`. -/
theorem foldl_single {β : Type} (g : Buf → β → Buf) (m : ℕ) (v : ℤ) (a0 : β) :
    ∀ (l : List β), l.Nodup → a0 ∈ l →
    (∀ b a, a ∈ l → a ≠ a0 → g b a m = b m) →
    (∀ b, g b a0 m = v) →
    ∀ b : Buf, (l.foldl g b) m = v := by
  intro l
  induction l with
  | nil => intro _ h; cases h
  | cons a t ih =>
    intro hnd ha hmiss hhit b
    rw [List.foldl_cons]
    rcases List.mem_cons.mp ha with rfl | hat
    · have huntouch : ∀ b1 a1, a1 ∈ t → g b1 a1 m = b1 m := by
        intro b1 a1 ha1
        refine hmiss b1 a1 (List.mem_cons_of_mem _ ha1) ?_
        intro he
        exact (List.nodup_cons.mp hnd).1 (he ▸ ha1)
      rw [foldl_untouched g m t huntouch]
      exact hhit b
    · exact ih (List.nodup_cons.mp hnd).2 hat
        (fun b1 a1 ha1 hne => hmiss b1 a1 (List.mem_cons_of_mem _ ha1) hne) hhit _

/-- Reading an output location written by `pixelPass`. -/
theorem pixelPass_at (N C H W : ℕ) (F : ℕ → ℕ → ℕ → ℕ → ℤ) (out : Buf)
    {n c y x : ℕ} (hn : n < N) (hc : c < C) (hy : y < H) (hx : x < W) :
    pixelPass N C H W F out (blobIdx C H W n c y x) = F n c y x := by
  unfold pixelPass
  have hkey : ∀ n1 c1 y1 x1, c1 < C → y1 < H → x1 < W →
      blobIdx C H W n1 c1 y1 x1 = blobIdx C H W n c y x →
      n1 = n ∧ c1 = c ∧ y1 = y ∧ x1 = x :=
    fun n1 c1 y1 x1 hc1 hy1 hx1 h => blobIdx_inj hc1 hy1 hx1 hc hy hx h
  apply foldl_single _ _ _ n _ (List.nodup_range N) (List.mem_range.mpr hn)
  · intro b1 n1 hn1 hne
    apply foldl_untouched
    intro b2 c1 hc1
    apply foldl_untouched
    intro b3 y1 hy1
    apply foldl_untouched
    intro b4 x1 hx1
    refine writeAt_ne _ _ _ (fun h => hne ?_)
    exact (hkey n1 c1 y1 x1 (List.mem_range.mp hc1) (List.mem_range.mp hy1)
      (List.mem_range.mp hx1) h.symm).1
  · intro b1
    apply foldl_single _ _ _ c _ (List.nodup_range C) (List.mem_range.mpr hc)
    · intro b2 c1 hc1 hne
      apply foldl_untouched
      intro b3 y1 hy1
      apply foldl_untouched
      intro b4 x1 hx1
      refine writeAt_ne _ _ _ (fun h => hne ?_)
      exact (hkey n c1 y1 x1 (List.mem_range.mp hc1) (List.mem_range.mp hy1)
        (List.mem_range.mp hx1) h.symm).2.1
    · intro b2
      apply foldl_single _ _ _ y _ (List.nodup_range H) (List.mem_range.mpr hy)
      · intro b3 y1 hy1 hne
        apply foldl_untouched
        intro b4 x1 hx1
        refine writeAt_ne _ _ _ (fun h => hne ?_)
        exact (hkey n c y1 x1 hc (List.mem_range.mp hy1)
          (List.mem_range.mp hx1) h.symm).2.2.1
      · intro b3
        apply foldl_single _ _ _ x _ (List.nodup_range W) (List.mem_range.mpr hx)
        · intro b4 x1 hx1 hne
          refine writeAt_ne _ _ _ (fun h => hne ?_)
          exact (hkey n c y x1 hc hy (List.mem_range.mp hx1) h.symm).2.2.2
        · intro b4
          exact writeAt_self _ _ _

theorem foldl_congr_mem {α β : Type} (l : List α) (f g : β → α → β)
    (h : ∀ b a, a ∈ l → f b a = g b a) : ∀ b, l.foldl f b = l.foldl g b := by
  induction l with
  | nil => intro b; rfl
  | cons a t ih =>
    intro b
    rw [List.foldl_cons, List.foldl_cons, h b a (List.mem_cons_self a t)]
    exact ih (fun b1 a1 ha1 => h b1 a1 (List.mem_cons_of_mem a ha1)) _

/-- Two pixel passes writing pointwise-equal values produce the same
buffer. -/
theorem pixelPass_congr (N C H W : ℕ) (F G : ℕ → ℕ → ℕ → ℕ → ℤ) (out : Buf)
    (h : ∀ n c y x, n < N → c < C → y < H → x < W → F n c y x = G n c y x) :
    pixelPass N C H W F out = pixelPass N C H W G out := by
  unfold pixelPass
  apply foldl_congr_mem
  intro b n hn
  apply foldl_congr_mem
  intro b1 c hc
  apply foldl_congr_mem
  intro b2 y hy
  apply foldl_congr_mem
  intro b3 x hx
  rw [h n c y x (List.mem_range.mp hn) (List.mem_range.mp hc)
    (List.mem_range.mp hy) (List.mem_range.mp hx)]

/-! ## Sum characterizations of the forward per-pixel values -/

/-- The smart double loop of the dense forward pass computes the full `K×K`
sum with out-of-bounds terms taken as zero. -/
theorem cppForwardVal_eq_sum (C H W K P : ℕ) (img ker : Buf) (n c y x : ℕ) :
    cppForwardVal C H W K P img ker n c y x =
      ∑ i in Finset.range K, ∑ j in Finset.range K,
        if inB P y H i ∧ inB P x W j then
          img (blobIdx C H W n c (y + i - P) (x + j - P)) *
          ker (blobIdx (K * K) H W n (i * K + j) y x)
        else 0 := by
  unfold cppForwardVal
  have h1 := foldl_congr_mem (kerRun K P y H)
    (fun v i => (kerRun K P x W).foldl (fun w j =>
        w + img (blobIdx C H W n c (y + i - P) (x + j - P)) *
            ker (blobIdx (K * K) H W n (i * K + j) y x)) v)
    (fun v i => v + ∑ j in Finset.range K,
        if inB P x W j then
          img (blobIdx C H W n c (y + i - P) (x + j - P)) *
          ker (blobIdx (K * K) H W n (i * K + j) y x)
        else 0)
    (fun v i _ => kerRun_foldl_sum K P x W _ v) 0
  rw [h1, kerRun_foldl_sum, zero_add]
  apply Finset.sum_congr rfl
  intro i _
  by_cases h : inB P y H i
  · rw [if_pos h]
    apply Finset.sum_congr rfl
    intro j _
    by_cases hj : inB P x W j
    · rw [if_pos hj, if_pos ⟨h, hj⟩]
    · rw [if_neg hj, if_neg (fun hc2 => hj hc2.2)]
  · rw [if_neg h]
    symm
    apply Finset.sum_eq_zero
    intro j _
    exact if_neg (fun hc2 => h hc2.1)

/-- The separable forward pass computes the row-factored sum: horizontal
partial sums weighted by the vertical kernel entries. -/
theorem sepForwardVal_eq_sum (C H W K P : ℕ) (img ker : Buf) (n c y x : ℕ) :
    sepForwardVal C H W K P img ker n c y x =
      ∑ i in Finset.range K, ∑ j in Finset.range K,
        if inB P y H i ∧ inB P x W j then
          img (blobIdx C H W n c (y + i - P) (x + j - P)) *
          ker (blobIdx (2 * K) H W n j y x) *
          ker (blobIdx (2 * K) H W n (K + i) y x)
        else 0 := by
  unfold sepForwardVal
  rw [kerRun_foldl_sum, zero_add]
  apply Finset.sum_congr rfl
  intro i _
  by_cases h : inB P y H i
  · rw [if_pos h, kerRun_foldl_sum, zero_add, Finset.sum_mul]
    apply Finset.sum_congr rfl
    intro j _
    by_cases hj : inB P x W j
    · rw [if_pos hj, if_pos ⟨h, hj⟩]
    · rw [if_neg hj, if_neg (fun hc2 => hj hc2.2), zero_mul]
  · rw [if_neg h]
    symm
    apply Finset.sum_eq_zero
    intro j _
    exact if_neg (fun hc2 => h hc2.1)

/-! ## Claims C2, C6, C1 -/

/-- **C2**: for every well-shaped input (`K` odd, `P = (K-1)/2`) and every
in-range `(n, c, y, x)`, the dense forward pass produces
`out[n,c,y,x] = Σ_{i,j ∈ [0,K)²} [bounds ok] img[n,c,y-P+i,x-P+j] *
ker[n,i*K+j,y,x]`: the clamped-start dual-bound loop yields exactly the
full `K×K` sum with out-of-bounds terms taken as zero. -/
theorem cpp_forward_full_sum (N C H W K P : ℕ) (img ker out : Buf) (n c y x : ℕ)
    (hK : K % 2 = 1) (hP : P = (K - 1) / 2)
    (hn : n < N) (hc : c < C) (hy : y < H) (hx : x < W) :
    CPPForward N C H W K P img ker out (blobIdx C H W n c y x) =
      ∑ i in Finset.range K, ∑ j in Finset.range K,
        if inB P y H i ∧ inB P x W j then
          img (blobIdx C H W n c (y + i - P) (x + j - P)) *
          ker (blobIdx (K * K) H W n (i * K + j) y x)
        else 0 := by
  unfold CPPForward
  rw [pixelPass_at N C H W _ out hn hc hy hx, cppForwardVal_eq_sum]

theorem cpp_forward_full_sum_witness :
    CPPForward 1 1 1 1 1 0 (fun _ => 5) (fun _ => 7) (fun _ => 0) (blobIdx 1 1 1 0 0 0 0) =
      ∑ i in Finset.range 1, ∑ j in Finset.range 1,
        if inB 0 0 1 i ∧ inB 0 0 1 j then
          (fun _ => (5 : ℤ)) (blobIdx 1 1 1 0 0 (0 + i - 0) (0 + j - 0)) *
          (fun _ => (7 : ℤ)) (blobIdx (1 * 1) 1 1 0 (i * 1 + j) 0 0)
        else 0 :=
  cpp_forward_full_sum 1 1 1 1 1 0 _ _ _ 0 0 0 0 (by decide) (by decide)
    (by decide) (by decide) (by decide) (by decide)

/-- **C6**: for `K = 1` (kernel blob with one channel, `P = 0`), the dense
forward pass degenerates to a pointwise scale: `out[n,c,y,x] =
img[n,c,y,x] * ker[n,0,y,x]`; in particular when the kernel entry is `1`
the output equals the input image value exactly. -/
theorem cpp_forward_K1_identity (N C H W : ℕ) (img ker out : Buf) (n c y x : ℕ)
    (hn : n < N) (hc : c < C) (hy : y < H) (hx : x < W) :
    CPPForward N C H W 1 0 img ker out (blobIdx C H W n c y x) =
      img (blobIdx C H W n c y x) * ker (blobIdx 1 H W n 0 y x)
    ∧ (ker (blobIdx 1 H W n 0 y x) = 1 →
       CPPForward N C H W 1 0 img ker out (blobIdx C H W n c y x) =
         img (blobIdx C H W n c y x)) := by
  have hval : CPPForward N C H W 1 0 img ker out (blobIdx C H W n c y x) =
      img (blobIdx C H W n c y x) * ker (blobIdx 1 H W n 0 y x) := by
    unfold CPPForward
    rw [pixelPass_at N C H W _ out hn hc hy hx, cppForwardVal_eq_sum]
    simp [inB, hy, hx]
  exact ⟨hval, fun h1 => by rw [hval, h1, mul_one]⟩

theorem cpp_forward_K1_identity_witness :
    (CPPForward 1 1 1 1 1 0 (fun _ => 9) (fun _ => 1) (fun _ => 0) (blobIdx 1 1 1 0 0 0 0) =
      (fun _ => (9 : ℤ)) (blobIdx 1 1 1 0 0 0 0) * (fun _ => (1 : ℤ)) (blobIdx 1 1 1 0 0 0 0))
    ∧ ((fun _ => (1 : ℤ)) (blobIdx 1 1 1 0 0 0 0) = 1 →
       CPPForward 1 1 1 1 1 0 (fun _ => 9) (fun _ => 1) (fun _ => 0) (blobIdx 1 1 1 0 0 0 0) =
         (fun _ => (9 : ℤ)) (blobIdx 1 1 1 0 0 0 0)) :=
  cpp_forward_K1_identity 1 1 1 1 _ _ _ 0 0 0 0 (by decide) (by decide)
    (by decide) (by decide)

/-- The dense kernel tensor constructed elementwise from a separable kernel
tensor, following the spec: `K_dense[n, i*K+j, y, x] = K_horiz[n, j, y, x] *
K_vert[n, i, y, x]`, where `K_horiz` is channels `[0,K)` and `K_vert` is
channels `[K,2K)` of the separable kernel blob. -/
def IsDenseOfSep (N K H W : ℕ) (sker dker : Buf) : Prop :=
  ∀ n i j y x, n < N → i < K → j < K → y < H → x < W →
    dker (blobIdx (K * K) H W n (i * K + j) y x) =
      sker (blobIdx (2 * K) H W n j y x) * sker (blobIdx (2 * K) H W n (K + i) y x)

/-- **C1**: for every image and separable kernel tensor, the Sep-PAC forward
output equals the PAC forward output on the algebraically constructed dense
kernel (exact arithmetic): the two output buffers are equal as a whole. -/
theorem sep_forward_eq_dense_forward (N C H W K P : ℕ) (img sker dker out : Buf)
    (hker : IsDenseOfSep N K H W sker dker) :
    SepCPPForward N C H W K P img sker out = CPPForward N C H W K P img dker out := by
  unfold SepCPPForward CPPForward
  apply pixelPass_congr
  intro n c y x hn hc hy hx
  rw [sepForwardVal_eq_sum, cppForwardVal_eq_sum]
  apply Finset.sum_congr rfl
  intro i hi
  apply Finset.sum_congr rfl
  intro j hj
  by_cases h : inB P y H i ∧ inB P x W j
  · rw [if_pos h, if_pos h,
      hker n i j y x hn (Finset.mem_range.mp hi) (Finset.mem_range.mp hj) hy hx]
    ring
  · rw [if_neg h, if_neg h]

theorem sep_forward_eq_dense_forward_witness :
    SepCPPForward 1 1 1 1 1 0 (fun _ => 3) (fun _ => 2) (fun _ => 0) =
      CPPForward 1 1 1 1 1 0 (fun _ => 3) (fun _ => 4) (fun _ => 0) :=
  sep_forward_eq_dense_forward 1 1 1 1 1 0 _ _ _ _
    (fun n i j y x _ _ _ _ _ => by decide)

/-! ## Backward passes -/

/-- The innermost channel loop shared by both backward passes: `v = 0; for c:
v += src[offset + y*W + x] * img[offset + i_img*W + j_img]` with
`offset = n*pixels_in_image + c*pixels_in_channel`. -/
def chanSum (C H W : ℕ) (src img : Buf) (n y x iimg jimg : ℕ) : ℤ :=
  (List.range C).foldl (fun v c =>
    v + src (blobIdx C H W n c y x) * img (blobIdx C H W n c iimg jimg)) 0

theorem foldl_range_sum (C : ℕ) (f : ℕ → ℤ) :
    (List.range C).foldl (fun v c => v + f c) 0 = ∑ c in Finset.range C, f c := by
  rw [foldl_add_eq, sum_map_range, zero_add]

theorem chanSum_eq_sum (C H W : ℕ) (src img : Buf) (n y x iimg jimg : ℕ) :
    chanSum C H W src img n y x iimg jimg =
      ∑ c in Finset.range C,
        src (blobIdx C H W n c y x) * img (blobIdx C H W n c iimg jimg) :=
  foldl_range_sum C _

/-- The per-pixel loop body of `CPPLayer::Backward_cpu` (cpp_layer.cpp,
lines 116-133): for each valid kernel offset `(i_ker, j_ker)`, store the
channel-summed product at `diff[n*pixels_in_kblob +
(i_ker*K + j_ker)*pixels_in_kernel + y*W + x]`. -/
def cppBwPix (C H W K P : ℕ) (src img : Buf) (n y x : ℕ) (b : Buf) : Buf :=
  (kerRun K P y H).foldl (fun b i =>
    (kerRun K P x W).foldl (fun b j =>
      writeAt b (blobIdx (K * K) H W n (i * K + j) y x)
        (chanSum C H W src img n y x (y + i - P) (x + j - P))) b) b

/-- The `n, y, x` loop nest shared by both backward passes. -/
def tripleFold (N H W : ℕ) (pix : ℕ → ℕ → ℕ → Buf → Buf) (b : Buf) : Buf :=
  (List.range N).foldl (fun b n =>
    (List.range H).foldl (fun b y =>
      (List.range W).foldl (fun b x => pix n y x b) b) b) b

/-- `CPPLayer::Backward_cpu` as a transformer of the kernel-diff buffer. -/
def CPPBackward (N C H W K P : ℕ) (src img diff : Buf) : Buf :=
  tripleFold N H W (cppBwPix C H W K P src img) diff

/-- The horizontal-half loop of `SepCPPLayer::Backward_cpu`
(sepcpp_layer.cpp, lines 125-147): for each valid horizontal offset `j_ker`,
accumulate over valid vertical offsets `i_ker` the channel-summed product
weighted by the vertical kernel value (channel `K + i_ker`), and store it at
diff channel `j_ker`. -/
def sepBwPixH (C H W K P : ℕ) (src img ker : Buf) (n y x : ℕ) (b : Buf) : Buf :=
  (kerRun K P x W).foldl (fun b j =>
    writeAt b (blobIdx (2 * K) H W n j y x)
      ((kerRun K P y H).foldl (fun v i =>
        v + chanSum C H W src img n y x (y + i - P) (x + j - P) *
            ker (blobIdx (2 * K) H W n (K + i) y x)) 0)) b

/-- The vertical-half loop of `SepCPPLayer::Backward_cpu` (sepcpp_layer.cpp,
lines 148-170): for each valid vertical offset `i_ker`, accumulate over
valid horizontal offsets `j_ker` the channel-summed product weighted by the
horizontal kernel value (channel `j_ker`), and store it at diff channel
`K + i_ker`. -/
def sepBwPixV (C H W K P : ℕ) (src img ker : Buf) (n y x : ℕ) (b : Buf) : Buf :=
  (kerRun K P y H).foldl (fun b i =>
    writeAt b (blobIdx (2 * K) H W n (K + i) y x)
      ((kerRun K P x W).foldl (fun v j =>
        v + chanSum C H W src img n y x (y + i - P) (x + j - P) *
            ker (blobIdx (2 * K) H W n j y x)) 0)) b

/-- `SepCPPLayer::Backward_cpu` as a transformer of the kernel-diff buffer:
per pixel, first the horizontal pass, then the vertical pass. -/
def SepCPPBackward (N C H W K P : ℕ) (src img ker diff : Buf) : Buf :=
  tripleFold N H W
    (fun n y x b => sepBwPixV C H W K P src img ker n y x
      (sepBwPixH C H W K P src img ker n y x b)) diff

/-! ## Write/frame lemmas for the backward loop nests -/

theorem tripleFold_untouched (N H W : ℕ) (pix : ℕ → ℕ → ℕ → Buf → Buf) (m : ℕ)
    (hp : ∀ n y x, n < N → y < H → x < W → ∀ b, pix n y x b m = b m) :
    ∀ b, tripleFold N H W pix b m = b m := by
  intro b
  unfold tripleFold
  apply foldl_untouched
  intro b1 n hn
  apply foldl_untouched
  intro b2 y hy
  apply foldl_untouched
  intro b3 x hx
  exact hp n y x (List.mem_range.mp hn) (List.mem_range.mp hy) (List.mem_range.mp hx) b3

theorem tripleFold_single (N H W : ℕ) (pix : ℕ → ℕ → ℕ → Buf → Buf) (m : ℕ) (v : ℤ)
    {n y x : ℕ} (hn : n < N) (hy : y < H) (hx : x < W)
    (hmiss : ∀ n1 y1 x1, n1 < N → y1 < H → x1 < W → ¬(n1 = n ∧ y1 = y ∧ x1 = x) →
      ∀ b, pix n1 y1 x1 b m = b m)
    (hhit : ∀ b, pix n y x b m = v) :
    ∀ b, tripleFold N H W pix b m = v := by
  intro b
  unfold tripleFold
  apply foldl_single _ _ _ n _ (List.nodup_range N) (List.mem_range.mpr hn)
  · intro b1 n1 hn1 hne
    apply foldl_untouched
    intro b2 y1 hy1
    apply foldl_untouched
    intro b3 x1 hx1
    exact hmiss n1 y1 x1 (List.mem_range.mp hn1) (List.mem_range.mp hy1)
      (List.mem_range.mp hx1) (fun hc => hne hc.1) b3
  · intro b1
    apply foldl_single _ _ _ y _ (List.nodup_range H) (List.mem_range.mpr hy)
    · intro b2 y1 hy1 hne
      apply foldl_untouched
      intro b3 x1 hx1
      exact hmiss n y1 x1 hn (List.mem_range.mp hy1) (List.mem_range.mp hx1)
        (fun hc => hne hc.2.1) b3
    · intro b2
      apply foldl_single _ _ _ x _ (List.nodup_range W) (List.mem_range.mpr hx)
      · intro b3 x1 hx1 hne
        exact hmiss n y x1 hn hy (List.mem_range.mp hx1) (fun hc => hne hc.2.2) b3
      · exact hhit

theorem cppBwPix_untouched (C H W K P : ℕ) (src img : Buf) (n y x m : ℕ)
    (h : ∀ i j, i ∈ kerRun K P y H → j ∈ kerRun K P x W →
      blobIdx (K * K) H W n (i * K + j) y x ≠ m) :
    ∀ b, cppBwPix C H W K P src img n y x b m = b m := by
  intro b
  unfold cppBwPix
  apply foldl_untouched
  intro b1 i hi
  apply foldl_untouched
  intro b2 j hj
  exact writeAt_ne _ _ _ (fun he => h i j hi hj he.symm)

theorem cppBwPix_write (C H W K P : ℕ) (src img : Buf) (n y x i j : ℕ)
    (hy : y < H) (hx : x < W)
    (hi : i ∈ kerRun K P y H) (hj : j ∈ kerRun K P x W) :
    ∀ b, cppBwPix C H W K P src img n y x b (blobIdx (K * K) H W n (i * K + j) y x) =
      chanSum C H W src img n y x (y + i - P) (x + j - P) := by
  intro b
  unfold cppBwPix
  have hiK := (mem_kerRun.mp hi).1
  have hjK := (mem_kerRun.mp hj).1
  apply foldl_single _ _ _ i _ (kerRun_nodup K P y H) hi
  · intro b1 i1 hi1 hne
    apply foldl_untouched
    intro b2 j1 hj1
    refine writeAt_ne _ _ _ (fun he => hne ?_)
    have hb := blobIdx_inj (mul_add_lt hiK hjK) hy hx
      (mul_add_lt (mem_kerRun.mp hi1).1 (mem_kerRun.mp hj1).1) hy hx he
    exact ((pair_inj hjK (mem_kerRun.mp hj1).1 hb.2.1).1).symm
  · intro b1
    apply foldl_single _ _ _ j _ (kerRun_nodup K P x W) hj
    · intro b2 j1 hj1 hne
      refine writeAt_ne _ _ _ (fun he => hne ?_)
      have hb := blobIdx_inj (mul_add_lt hiK hjK) hy hx
        (mul_add_lt hiK (mem_kerRun.mp hj1).1) hy hx he
      exact ((pair_inj hjK (mem_kerRun.mp hj1).1 hb.2.1).2).symm
    · intro b2
      exact writeAt_self _ _ _

/-- Reading a valid kernel-gradient entry after the dense backward pass. -/
theorem CPPBackward_write (N C H W K P : ℕ) (src img diff : Buf) (n y x i j : ℕ)
    (hn : n < N) (hy : y < H) (hx : x < W)
    (hi : i ∈ kerRun K P y H) (hj : j ∈ kerRun K P x W) :
    CPPBackward N C H W K P src img diff (blobIdx (K * K) H W n (i * K + j) y x) =
      chanSum C H W src img n y x (y + i - P) (x + j - P) := by
  unfold CPPBackward
  refine tripleFold_single N H W _ _ _ hn hy hx ?_ (cppBwPix_write C H W K P src img n y x i j hy hx hi hj) diff
  intro n1 y1 x1 hn1 hy1 hx1 hne
  apply cppBwPix_untouched
  intro i1 j1 hi1 hj1 he
  have hb := blobIdx_inj (mul_add_lt (mem_kerRun.mp hi1).1 (mem_kerRun.mp hj1).1) hy1 hx1
    (mul_add_lt (mem_kerRun.mp hi).1 (mem_kerRun.mp hj).1) hy hx he
  exact hne ⟨hb.1, hb.2.2.1, hb.2.2.2⟩

/-- An out-of-bounds kernel-gradient entry is never assigned by the dense
backward pass. -/
theorem CPPBackward_untouched (N C H W K P : ℕ) (src img diff : Buf) (n y x i j : ℕ)
    (hy : y < H) (hx : x < W) (hiK : i < K) (hjK : j < K)
    (hinv : ¬(inB P y H i ∧ inB P x W j)) :
    CPPBackward N C H W K P src img diff (blobIdx (K * K) H W n (i * K + j) y x) =
      diff (blobIdx (K * K) H W n (i * K + j) y x) := by
  unfold CPPBackward
  apply tripleFold_untouched
  intro n1 y1 x1 hn1 hy1 hx1
  apply cppBwPix_untouched
  intro i1 j1 hi1 hj1 he
  have hb := blobIdx_inj (mul_add_lt (mem_kerRun.mp hi1).1 (mem_kerRun.mp hj1).1) hy1 hx1
    (mul_add_lt hiK hjK) hy hx he
  have hij := pair_inj (mem_kerRun.mp hj1).1 hjK hb.2.1
  apply hinv
  constructor
  · rw [← hb.2.2.1, ← hij.1]
    exact (mem_kerRun.mp hi1).2
  · rw [← hb.2.2.2, ← hij.2]
    exact (mem_kerRun.mp hj1).2

theorem sepBwPixH_untouched (C H W K P : ℕ) (src img ker : Buf) (n y x m : ℕ)
    (h : ∀ j, j ∈ kerRun K P x W → blobIdx (2 * K) H W n j y x ≠ m) :
    ∀ b, sepBwPixH C H W K P src img ker n y x b m = b m := by
  intro b
  unfold sepBwPixH
  apply foldl_untouched
  intro b1 j hj
  exact writeAt_ne _ _ _ (fun he => h j hj he.symm)

theorem sepBwPixV_untouched (C H W K P : ℕ) (src img ker : Buf) (n y x m : ℕ)
    (h : ∀ i, i ∈ kerRun K P y H → blobIdx (2 * K) H W n (K + i) y x ≠ m) :
    ∀ b, sepBwPixV C H W K P src img ker n y x b m = b m := by
  intro b
  unfold sepBwPixV
  apply foldl_untouched
  intro b1 i hi
  exact writeAt_ne _ _ _ (fun he => h i hi he.symm)

theorem sepBwPixH_write (C H W K P : ℕ) (src img ker : Buf) (n y x j : ℕ)
    (hy : y < H) (hx : x < W) (hj : j ∈ kerRun K P x W) :
    ∀ b, sepBwPixH C H W K P src img ker n y x b (blobIdx (2 * K) H W n j y x) =
      (kerRun K P y H).foldl (fun v i =>
        v + chanSum C H W src img n y x (y + i - P) (x + j - P) *
            ker (blobIdx (2 * K) H W n (K + i) y x)) 0 := by
  intro b
  unfold sepBwPixH
  have hjK := (mem_kerRun.mp hj).1
  apply foldl_single _ _ _ j _ (kerRun_nodup K P x W) hj
  · intro b1 j1 hj1 hne
    refine writeAt_ne _ _ _ (fun he => hne ?_)
    have hj1K : j1 < K := (mem_kerRun.mp hj1).1
    have hb := blobIdx_inj (show j < 2 * K by omega) hy hx
      (show j1 < 2 * K by omega) hy hx he
    exact hb.2.1.symm
  · intro b1
    exact writeAt_self _ _ _

theorem sepBwPixV_write (C H W K P : ℕ) (src img ker : Buf) (n y x i : ℕ)
    (hy : y < H) (hx : x < W) (hi : i ∈ kerRun K P y H) :
    ∀ b, sepBwPixV C H W K P src img ker n y x b (blobIdx (2 * K) H W n (K + i) y x) =
      (kerRun K P x W).foldl (fun v j =>
        v + chanSum C H W src img n y x (y + i - P) (x + j - P) *
            ker (blobIdx (2 * K) H W n j y x)) 0 := by
  intro b
  unfold sepBwPixV
  have hiK := (mem_kerRun.mp hi).1
  apply foldl_single _ _ _ i _ (kerRun_nodup K P y H) hi
  · intro b1 i1 hi1 hne
    refine writeAt_ne _ _ _ (fun he => hne ?_)
    have hi1K : i1 < K := (mem_kerRun.mp hi1).1
    have hb := blobIdx_inj (show K + i < 2 * K by omega) hy hx
      (show K + i1 < 2 * K by omega) hy hx he
    omega
  · intro b1
    exact writeAt_self _ _ _

/-- Reading a valid horizontal-half gradient entry after the separable
backward pass. -/
theorem SepCPPBackward_writeH (N C H W K P : ℕ) (src img ker diff : Buf) (n y x j : ℕ)
    (hn : n < N) (hy : y < H) (hx : x < W) (hj : j ∈ kerRun K P x W) :
    SepCPPBackward N C H W K P src img ker diff (blobIdx (2 * K) H W n j y x) =
      (kerRun K P y H).foldl (fun v i =>
        v + chanSum C H W src img n y x (y + i - P) (x + j - P) *
            ker (blobIdx (2 * K) H W n (K + i) y x)) 0 := by
  unfold SepCPPBackward
  have hjK := (mem_kerRun.mp hj).1
  apply tripleFold_single N H W _ _ _ hn hy hx
  · intro n1 y1 x1 hn1 hy1 hx1 hne b
    rw [sepBwPixV_untouched _ _ _ _ _ _ _ _ _ _ _ _ ?hV,
      sepBwPixH_untouched _ _ _ _ _ _ _ _ _ _ _ _ ?hH]
    case hV =>
      intro i1 hi1 he
      have hi1K : i1 < K := (mem_kerRun.mp hi1).1
      have hb := blobIdx_inj (show K + i1 < 2 * K by omega) hy1 hx1
        (show j < 2 * K by omega) hy hx he
      exact hne ⟨hb.1, hb.2.2.1, hb.2.2.2⟩
    case hH =>
      intro j1 hj1 he
      have hj1K : j1 < K := (mem_kerRun.mp hj1).1
      have hb := blobIdx_inj (show j1 < 2 * K by omega) hy1 hx1
        (show j < 2 * K by omega) hy hx he
      exact hne ⟨hb.1, hb.2.2.1, hb.2.2.2⟩
  · intro b
    rw [sepBwPixV_untouched _ _ _ _ _ _ _ _ _ _ _ _ ?hV2]
    case hV2 =>
      intro i1 hi1 he
      have hi1K : i1 < K := (mem_kerRun.mp hi1).1
      have hb := blobIdx_inj (show K + i1 < 2 * K by omega) hy hx
        (show j < 2 * K by omega) hy hx he
      omega
    exact sepBwPixH_write C H W K P src img ker n y x j hy hx hj b

/-- Reading a valid vertical-half gradient entry after the separable
backward pass. -/
theorem SepCPPBackward_writeV (N C H W K P : ℕ) (src img ker diff : Buf) (n y x i : ℕ)
    (hn : n < N) (hy : y < H) (hx : x < W) (hi : i ∈ kerRun K P y H) :
    SepCPPBackward N C H W K P src img ker diff (blobIdx (2 * K) H W n (K + i) y x) =
      (kerRun K P x W).foldl (fun v j =>
        v + chanSum C H W src img n y x (y + i - P) (x + j - P) *
            ker (blobIdx (2 * K) H W n j y x)) 0 := by
  unfold SepCPPBackward
  have hiK := (mem_kerRun.mp hi).1
  apply tripleFold_single N H W _ _ _ hn hy hx
  · intro n1 y1 x1 hn1 hy1 hx1 hne b
    rw [sepBwPixV_untouched _ _ _ _ _ _ _ _ _ _ _ _ ?hV,
      sepBwPixH_untouched _ _ _ _ _ _ _ _ _ _ _ _ ?hH]
    case hV =>
      intro i1 hi1 he
      have hi1K : i1 < K := (mem_kerRun.mp hi1).1
      have hb := blobIdx_inj (show K + i1 < 2 * K by omega) hy1 hx1
        (show K + i < 2 * K by omega) hy hx he
      exact hne ⟨hb.1, hb.2.2.1, hb.2.2.2⟩
    case hH =>
      intro j1 hj1 he
      have hj1K : j1 < K := (mem_kerRun.mp hj1).1
      have hb := blobIdx_inj (show j1 < 2 * K by omega) hy1 hx1
        (show K + i < 2 * K by omega) hy hx he
      exact hne ⟨hb.1, hb.2.2.1, hb.2.2.2⟩
  · intro b
    exact sepBwPixV_write C H W K P src img ker n y x i hy hx hi _

/-- An out-of-bounds horizontal-half gradient entry is never assigned by the
separable backward pass. -/
theorem SepCPPBackward_untouchedH (N C H W K P : ℕ) (src img ker diff : Buf)
    (n y x j : ℕ) (hy : y < H) (hx : x < W) (hjK : j < K)
    (hinv : ¬ inB P x W j) :
    SepCPPBackward N C H W K P src img ker diff (blobIdx (2 * K) H W n j y x) =
      diff (blobIdx (2 * K) H W n j y x) := by
  unfold SepCPPBackward
  apply tripleFold_untouched
  intro n1 y1 x1 hn1 hy1 hx1 b
  rw [sepBwPixV_untouched _ _ _ _ _ _ _ _ _ _ _ _ ?hV,
    sepBwPixH_untouched _ _ _ _ _ _ _ _ _ _ _ _ ?hH]
  case hV =>
    intro i1 hi1 he
    have hi1K : i1 < K := (mem_kerRun.mp hi1).1
    have hb := blobIdx_inj (show K + i1 < 2 * K by omega) hy1 hx1
      (show j < 2 * K by omega) hy hx he
    omega
  case hH =>
    intro j1 hj1 he
    have hj1K : j1 < K := (mem_kerRun.mp hj1).1
    have hb := blobIdx_inj (show j1 < 2 * K by omega) hy1 hx1
      (show j < 2 * K by omega) hy hx he
    apply hinv
    rw [← hb.2.2.2, ← hb.2.1]
    exact (mem_kerRun.mp hj1).2

/-- An out-of-bounds vertical-half gradient entry is never assigned by the
separable backward pass. -/
theorem SepCPPBackward_untouchedV (N C H W K P : ℕ) (src img ker diff : Buf)
    (n y x i : ℕ) (hy : y < H) (hx : x < W) (hiK : i < K)
    (hinv : ¬ inB P y H i) :
    SepCPPBackward N C H W K P src img ker diff (blobIdx (2 * K) H W n (K + i) y x) =
      diff (blobIdx (2 * K) H W n (K + i) y x) := by
  unfold SepCPPBackward
  apply tripleFold_untouched
  intro n1 y1 x1 hn1 hy1 hx1 b
  rw [sepBwPixV_untouched _ _ _ _ _ _ _ _ _ _ _ _ ?hV,
    sepBwPixH_untouched _ _ _ _ _ _ _ _ _ _ _ _ ?hH]
  case hV =>
    intro i1 hi1 he
    have hi1K : i1 < K := (mem_kerRun.mp hi1).1
    have hb := blobIdx_inj (show K + i1 < 2 * K by omega) hy1 hx1
      (show K + i < 2 * K by omega) hy hx he
    have hii : i1 = i := by omega
    apply hinv
    rw [← hb.2.2.1, ← hii]
    exact (mem_kerRun.mp hi1).2
  case hH =>
    intro j1 hj1 he
    have hj1K : j1 < K := (mem_kerRun.mp hj1).1
    have hb := blobIdx_inj (show j1 < 2 * K by omega) hy1 hx1
      (show K + i < 2 * K by omega) hy hx he
    omega

/-! ## Perturbation lemmas: the forward passes are affine in each kernel
element, which makes the backward passes exact adjoints. -/

/-- The dense forward value at a pixel reads the kernel blob only at that
pixel's channels. -/
theorem cppForwardVal_congr_ker (C H W K P : ℕ) (img ker1 ker2 : Buf) (n c y x : ℕ)
    (h : ∀ ch, ch < K * K →
      ker1 (blobIdx (K * K) H W n ch y x) = ker2 (blobIdx (K * K) H W n ch y x)) :
    cppForwardVal C H W K P img ker1 n c y x = cppForwardVal C H W K P img ker2 n c y x := by
  rw [cppForwardVal_eq_sum, cppForwardVal_eq_sum]
  apply Finset.sum_congr rfl
  intro i hi
  apply Finset.sum_congr rfl
  intro j hj
  by_cases hc2 : inB P y H i ∧ inB P x W j
  · rw [if_pos hc2, if_pos hc2,
      h (i * K + j) (mul_add_lt (Finset.mem_range.mp hi) (Finset.mem_range.mp hj))]
  · rw [if_neg hc2, if_neg hc2]

/-- The separable forward value at a pixel reads the kernel blob only at
that pixel's channels. -/
theorem sepForwardVal_congr_ker (C H W K P : ℕ) (img ker1 ker2 : Buf) (n c y x : ℕ)
    (h : ∀ ch, ch < 2 * K →
      ker1 (blobIdx (2 * K) H W n ch y x) = ker2 (blobIdx (2 * K) H W n ch y x)) :
    sepForwardVal C H W K P img ker1 n c y x = sepForwardVal C H W K P img ker2 n c y x := by
  rw [sepForwardVal_eq_sum, sepForwardVal_eq_sum]
  apply Finset.sum_congr rfl
  intro i hi
  apply Finset.sum_congr rfl
  intro j hj
  have hiK := Finset.mem_range.mp hi
  have hjK := Finset.mem_range.mp hj
  by_cases hc2 : inB P y H i ∧ inB P x W j
  · rw [if_pos hc2, if_pos hc2, h j (by omega), h (K + i) (by omega)]
  · rw [if_neg hc2, if_neg hc2]

/-- Adding `t` to one valid dense kernel element changes the forward value
at its pixel by `img-neighbor * t`. -/
theorem cppForwardVal_perturb (C H W K P : ℕ) (img ker : Buf) (n c y x i j : ℕ) (t : ℤ)
    (hy : y < H) (hx : x < W) (hiK : i < K) (hjK : j < K)
    (hiv : inB P y H i) (hjv : inB P x W j) :
    cppForwardVal C H W K P img
      (writeAt ker (blobIdx (K * K) H W n (i * K + j) y x)
        (ker (blobIdx (K * K) H W n (i * K + j) y x) + t)) n c y x =
    cppForwardVal C H W K P img ker n c y x +
      img (blobIdx C H W n c (y + i - P) (x + j - P)) * t := by
  have hHW : 0 < H * W := Nat.mul_pos (by omega) (by omega)
  rw [cppForwardVal_eq_sum, cppForwardVal_eq_sum]
  have key : ∀ i1 ∈ Finset.range K, ∀ j1 ∈ Finset.range K,
      (if inB P y H i1 ∧ inB P x W j1 then
         img (blobIdx C H W n c (y + i1 - P) (x + j1 - P)) *
         (writeAt ker (blobIdx (K * K) H W n (i * K + j) y x)
            (ker (blobIdx (K * K) H W n (i * K + j) y x) + t))
           (blobIdx (K * K) H W n (i1 * K + j1) y x)
       else 0)
      = (if inB P y H i1 ∧ inB P x W j1 then
           img (blobIdx C H W n c (y + i1 - P) (x + j1 - P)) *
           ker (blobIdx (K * K) H W n (i1 * K + j1) y x)
         else 0)
        + (if i1 = i ∧ j1 = j then
             img (blobIdx C H W n c (y + i - P) (x + j - P)) * t
           else 0) := by
    intro i1 hi1 j1 hj1
    have hi1K := Finset.mem_range.mp hi1
    have hj1K := Finset.mem_range.mp hj1
    by_cases hcond : inB P y H i1 ∧ inB P x W j1
    · rw [if_pos hcond, if_pos hcond]
      by_cases hij : i1 = i ∧ j1 = j
      · rcases hij with ⟨rfl, rfl⟩
        rw [if_pos ⟨rfl, rfl⟩, writeAt_self]
        ring
      · rw [if_neg hij, writeAt_ne]
        · ring
        · intro he
          have hch := blobIdx_inj_ch hHW he
          have hp := pair_inj hj1K hjK hch
          exact hij ⟨hp.1, hp.2⟩
    · rw [if_neg hcond, if_neg hcond,
        if_neg (fun hij => hcond (by rw [hij.1, hij.2]; exact ⟨hiv, hjv⟩))]
      ring
  rw [Finset.sum_congr rfl (fun i1 hi1 => Finset.sum_congr rfl (key i1 hi1))]
  rw [Finset.sum_congr rfl (fun i1 _ => Finset.sum_add_distrib), Finset.sum_add_distrib]
  congr 1
  have h1 : (∑ i1 in Finset.range K, ∑ j1 in Finset.range K,
      if i1 = i ∧ j1 = j then img (blobIdx C H W n c (y + i - P) (x + j - P)) * t else 0)
      = ∑ j1 in Finset.range K,
          if i = i ∧ j1 = j then img (blobIdx C H W n c (y + i - P) (x + j - P)) * t else 0 :=
    Finset.sum_eq_single_of_mem i (Finset.mem_range.mpr hiK)
      (fun i1 _ hne => Finset.sum_eq_zero (fun j1 _ => if_neg (fun hc => hne hc.1)))
  rw [h1, Finset.sum_eq_single_of_mem j (Finset.mem_range.mpr hjK)
    (fun j1 _ hne => if_neg (fun hc => hne hc.2)), if_pos ⟨rfl, rfl⟩]

/-- Adding `t` to one valid horizontal separable kernel element changes the
forward value at its pixel by `t` times the vertical-weighted column sum. -/
theorem sepForwardVal_perturbH (C H W K P : ℕ) (img ker : Buf) (n c y x j : ℕ) (t : ℤ)
    (hy : y < H) (hx : x < W) (hjK : j < K) (hjv : inB P x W j) :
    sepForwardVal C H W K P img
      (writeAt ker (blobIdx (2 * K) H W n j y x)
        (ker (blobIdx (2 * K) H W n j y x) + t)) n c y x =
    sepForwardVal C H W K P img ker n c y x +
      (∑ i1 in Finset.range K, if inB P y H i1 then
        img (blobIdx C H W n c (y + i1 - P) (x + j - P)) *
        ker (blobIdx (2 * K) H W n (K + i1) y x) else 0) * t := by
  have hHW : 0 < H * W := Nat.mul_pos (by omega) (by omega)
  rw [sepForwardVal_eq_sum, sepForwardVal_eq_sum]
  have key : ∀ i1 ∈ Finset.range K, ∀ j1 ∈ Finset.range K,
      (if inB P y H i1 ∧ inB P x W j1 then
         img (blobIdx C H W n c (y + i1 - P) (x + j1 - P)) *
         (writeAt ker (blobIdx (2 * K) H W n j y x)
            (ker (blobIdx (2 * K) H W n j y x) + t)) (blobIdx (2 * K) H W n j1 y x) *
         (writeAt ker (blobIdx (2 * K) H W n j y x)
            (ker (blobIdx (2 * K) H W n j y x) + t)) (blobIdx (2 * K) H W n (K + i1) y x)
       else 0)
      = (if inB P y H i1 ∧ inB P x W j1 then
           img (blobIdx C H W n c (y + i1 - P) (x + j1 - P)) *
           ker (blobIdx (2 * K) H W n j1 y x) *
           ker (blobIdx (2 * K) H W n (K + i1) y x)
         else 0)
        + (if j1 = j ∧ inB P y H i1 then
             img (blobIdx C H W n c (y + i1 - P) (x + j - P)) *
             ker (blobIdx (2 * K) H W n (K + i1) y x) * t
           else 0) := by
    intro i1 hi1 j1 hj1
    have hi1K := Finset.mem_range.mp hi1
    have hj1K := Finset.mem_range.mp hj1
    have hV : (writeAt ker (blobIdx (2 * K) H W n j y x)
        (ker (blobIdx (2 * K) H W n j y x) + t)) (blobIdx (2 * K) H W n (K + i1) y x)
        = ker (blobIdx (2 * K) H W n (K + i1) y x) := by
      refine writeAt_ne _ _ _ (fun he => ?_)
      have hch := blobIdx_inj_ch hHW he
      omega
    by_cases hcond : inB P y H i1 ∧ inB P x W j1
    · rw [if_pos hcond, if_pos hcond, hV]
      by_cases hjj : j1 = j
      · subst hjj
        rw [writeAt_self, if_pos ⟨rfl, hcond.1⟩]
        ring
      · rw [writeAt_ne _ _ _ (fun he => hjj (blobIdx_inj_ch hHW he)),
          if_neg (fun hc => hjj hc.1)]
        ring
    · rw [if_neg hcond, if_neg hcond,
        if_neg (fun hc => hcond ⟨hc.2, by rw [hc.1]; exact hjv⟩)]
      ring
  rw [Finset.sum_congr rfl (fun i1 hi1 => Finset.sum_congr rfl (key i1 hi1))]
  rw [Finset.sum_congr rfl (fun i1 _ => Finset.sum_add_distrib), Finset.sum_add_distrib]
  congr 1
  rw [Finset.sum_mul]
  apply Finset.sum_congr rfl
  intro i1 _
  rw [Finset.sum_eq_single_of_mem j (Finset.mem_range.mpr hjK)
    (fun j1 _ hne => if_neg (fun hc => hne hc.1))]
  by_cases hc : inB P y H i1
  · rw [if_pos ⟨rfl, hc⟩, if_pos hc]
  · rw [if_neg (fun hcc => hc hcc.2), if_neg hc, zero_mul]

/-- Adding `t` to one valid vertical separable kernel element changes the
forward value at its pixel by `t` times the horizontal-weighted row sum. -/
theorem sepForwardVal_perturbV (C H W K P : ℕ) (img ker : Buf) (n c y x i : ℕ) (t : ℤ)
    (hy : y < H) (hx : x < W) (hiK : i < K) (hiv : inB P y H i) :
    sepForwardVal C H W K P img
      (writeAt ker (blobIdx (2 * K) H W n (K + i) y x)
        (ker (blobIdx (2 * K) H W n (K + i) y x) + t)) n c y x =
    sepForwardVal C H W K P img ker n c y x +
      (∑ j1 in Finset.range K, if inB P x W j1 then
        img (blobIdx C H W n c (y + i - P) (x + j1 - P)) *
        ker (blobIdx (2 * K) H W n j1 y x) else 0) * t := by
  have hHW : 0 < H * W := Nat.mul_pos (by omega) (by omega)
  rw [sepForwardVal_eq_sum, sepForwardVal_eq_sum]
  have key : ∀ i1 ∈ Finset.range K, ∀ j1 ∈ Finset.range K,
      (if inB P y H i1 ∧ inB P x W j1 then
         img (blobIdx C H W n c (y + i1 - P) (x + j1 - P)) *
         (writeAt ker (blobIdx (2 * K) H W n (K + i) y x)
            (ker (blobIdx (2 * K) H W n (K + i) y x) + t)) (blobIdx (2 * K) H W n j1 y x) *
         (writeAt ker (blobIdx (2 * K) H W n (K + i) y x)
            (ker (blobIdx (2 * K) H W n (K + i) y x) + t)) (blobIdx (2 * K) H W n (K + i1) y x)
       else 0)
      = (if inB P y H i1 ∧ inB P x W j1 then
           img (blobIdx C H W n c (y + i1 - P) (x + j1 - P)) *
           ker (blobIdx (2 * K) H W n j1 y x) *
           ker (blobIdx (2 * K) H W n (K + i1) y x)
         else 0)
        + (if i1 = i ∧ inB P x W j1 then
             img (blobIdx C H W n c (y + i - P) (x + j1 - P)) *
             ker (blobIdx (2 * K) H W n j1 y x) * t
           else 0) := by
    intro i1 hi1 j1 hj1
    have hi1K := Finset.mem_range.mp hi1
    have hj1K := Finset.mem_range.mp hj1
    have hH : (writeAt ker (blobIdx (2 * K) H W n (K + i) y x)
        (ker (blobIdx (2 * K) H W n (K + i) y x) + t)) (blobIdx (2 * K) H W n j1 y x)
        = ker (blobIdx (2 * K) H W n j1 y x) := by
      refine writeAt_ne _ _ _ (fun he => ?_)
      have hch := blobIdx_inj_ch hHW he
      omega
    by_cases hcond : inB P y H i1 ∧ inB P x W j1
    · rw [if_pos hcond, if_pos hcond, hH]
      by_cases hii : i1 = i
      · subst hii
        rw [writeAt_self, if_pos ⟨rfl, hcond.2⟩]
        ring
      · rw [writeAt_ne _ _ _ (fun he => hii (by have := blobIdx_inj_ch hHW he; omega)),
          if_neg (fun hc => hii hc.1)]
        ring
    · rw [if_neg hcond, if_neg hcond,
        if_neg (fun hc => hcond ⟨by rw [hc.1]; exact hiv, hc.2⟩)]
      ring
  rw [Finset.sum_congr rfl (fun i1 hi1 => Finset.sum_congr rfl (key i1 hi1))]
  rw [Finset.sum_congr rfl (fun i1 _ => Finset.sum_add_distrib), Finset.sum_add_distrib]
  congr 1
  have h1 : (∑ i1 in Finset.range K, ∑ j1 in Finset.range K,
      if i1 = i ∧ inB P x W j1 then
        img (blobIdx C H W n c (y + i - P) (x + j1 - P)) *
        ker (blobIdx (2 * K) H W n j1 y x) * t
      else 0)
      = ∑ j1 in Finset.range K,
          if i = i ∧ inB P x W j1 then
            img (blobIdx C H W n c (y + i - P) (x + j1 - P)) *
            ker (blobIdx (2 * K) H W n j1 y x) * t
          else 0 :=
    Finset.sum_eq_single_of_mem i (Finset.mem_range.mpr hiK)
      (fun i1 _ hne => Finset.sum_eq_zero (fun j1 _ => if_neg (fun hc => hne hc.1)))
  rw [h1, Finset.sum_mul]
  apply Finset.sum_congr rfl
  intro j1 _
  by_cases hc : inB P x W j1
  · rw [if_pos ⟨rfl, hc⟩, if_pos hc]
  · rw [if_neg (fun hcc => hc hcc.2), if_neg hc, zero_mul]

/-- Collapse of the loss-difference sum: if perturbing the kernel changes
the forward output only at pixel `(n, y, x)`, and there by `D c` per
channel, the src-weighted total difference is `Σ_c src * D c`. -/
theorem lsum_collapse (N C H W : ℕ) (src : Buf) (F G : ℕ → ℕ → ℕ → ℕ → ℤ) (D : ℕ → ℤ)
    {n y x : ℕ} (hn : n < N) (hy : y < H) (hx : x < W)
    (hother : ∀ n1 c y1 x1, y1 < H → x1 < W → ¬(n1 = n ∧ y1 = y ∧ x1 = x) →
      G n1 c y1 x1 = F n1 c y1 x1)
    (hdelta : ∀ c, G n c y x = F n c y x + D c) :
    (∑ n1 in Finset.range N, ∑ c in Finset.range C, ∑ y1 in Finset.range H,
       ∑ x1 in Finset.range W,
       src (blobIdx C H W n1 c y1 x1) * (G n1 c y1 x1 - F n1 c y1 x1))
    = ∑ c in Finset.range C, src (blobIdx C H W n c y x) * D c := by
  have hzero : ∀ n1 c y1 x1, y1 < H → x1 < W → ¬(n1 = n ∧ y1 = y ∧ x1 = x) →
      src (blobIdx C H W n1 c y1 x1) * (G n1 c y1 x1 - F n1 c y1 x1) = 0 := by
    intro n1 c y1 x1 hy1 hx1 hne
    rw [hother n1 c y1 x1 hy1 hx1 hne]
    ring
  rw [Finset.sum_eq_single_of_mem n (Finset.mem_range.mpr hn)
    (fun n1 _ hne => Finset.sum_eq_zero (fun c _ => Finset.sum_eq_zero (fun y1 hy1 =>
      Finset.sum_eq_zero (fun x1 hx1 => hzero n1 c y1 x1 (Finset.mem_range.mp hy1)
        (Finset.mem_range.mp hx1) (fun hc => hne hc.1)))))]
  apply Finset.sum_congr rfl
  intro c _
  rw [Finset.sum_eq_single_of_mem y (Finset.mem_range.mpr hy)
    (fun y1 hy1 hne => Finset.sum_eq_zero (fun x1 hx1 => hzero n c y1 x1
      (Finset.mem_range.mp hy1) (Finset.mem_range.mp hx1) (fun hc => hne hc.2.1)))]
  rw [Finset.sum_eq_single_of_mem x (Finset.mem_range.mpr hx)
    (fun x1 hx1 hne => hzero n c y x1 hy (Finset.mem_range.mp hx1) (fun hc => hne hc.2.2))]
  rw [hdelta c]
  ring

/-- Reordering of the separable adjoint sum: the channel-summed src-weighted
perturbation response equals the cross-weighted gradient sum. -/
theorem lsum_weighted_swap (C K : ℕ) (s : ℕ → ℤ) (t : ℤ) (p : ℕ → Prop)
    [DecidablePred p] (B : ℕ → ℕ → ℤ) (V : ℕ → ℤ) :
    (∑ c in Finset.range C, s c *
      ((∑ i1 in Finset.range K, if p i1 then B c i1 * V i1 else 0) * t))
    = t * ∑ i1 in Finset.range K,
        if p i1 then (∑ c in Finset.range C, s c * B c i1) * V i1 else 0 := by
  have hL : ∀ c, s c * ((∑ i1 in Finset.range K, if p i1 then B c i1 * V i1 else 0) * t)
      = ∑ i1 in Finset.range K, s c * ((if p i1 then B c i1 * V i1 else 0) * t) := by
    intro c
    rw [Finset.sum_mul, Finset.mul_sum]
  rw [Finset.sum_congr rfl (fun c _ => hL c), Finset.sum_comm, Finset.mul_sum]
  apply Finset.sum_congr rfl
  intro i1 _
  by_cases hp : p i1
  · rw [if_pos hp, Finset.sum_mul, Finset.mul_sum]
    apply Finset.sum_congr rfl
    intro c _
    rw [if_pos hp]
    ring
  · rw [if_neg hp, mul_zero]
    apply Finset.sum_eq_zero
    intro c _
    rw [if_neg hp]
    ring

/-! ## Claims C3, C4, C10 -/

/-- **C3**: for every valid kernel offset `(i, j)` at pixel `(n, y, x)`, the
dense backward pass writes `diff[n, i*K+j, y, x] = Σ_c src[n,c,y,x] *
img[n,c,y-P+i,x-P+j]`, and this value is the exact partial derivative of the
(src-weighted) forward output with respect to that kernel element: adding
any `t` to it changes the src-weighted output sum by `t` times the value. -/
theorem cpp_backward_correct (N C H W K P : ℕ) (src img diff ker : Buf)
    (n y x i j : ℕ) (t : ℤ)
    (hn : n < N) (hy : y < H) (hx : x < W)
    (hiK : i < K) (hjK : j < K) (hiv : inB P y H i) (hjv : inB P x W j) :
    CPPBackward N C H W K P src img diff (blobIdx (K * K) H W n (i * K + j) y x)
      = (∑ c in Finset.range C,
          src (blobIdx C H W n c y x) * img (blobIdx C H W n c (y + i - P) (x + j - P)))
    ∧ (∑ n1 in Finset.range N, ∑ c in Finset.range C, ∑ y1 in Finset.range H,
         ∑ x1 in Finset.range W,
         src (blobIdx C H W n1 c y1 x1) *
           (cppForwardVal C H W K P img
              (writeAt ker (blobIdx (K * K) H W n (i * K + j) y x)
                (ker (blobIdx (K * K) H W n (i * K + j) y x) + t)) n1 c y1 x1
            - cppForwardVal C H W K P img ker n1 c y1 x1))
      = t * ∑ c in Finset.range C,
          src (blobIdx C H W n c y x) * img (blobIdx C H W n c (y + i - P) (x + j - P)) := by
  constructor
  · rw [CPPBackward_write N C H W K P src img diff n y x i j hn hy hx
      (mem_kerRun.mpr ⟨hiK, hiv⟩) (mem_kerRun.mpr ⟨hjK, hjv⟩)]
    exact chanSum_eq_sum C H W src img n y x (y + i - P) (x + j - P)
  · rw [lsum_collapse N C H W src
      (cppForwardVal C H W K P img ker)
      (cppForwardVal C H W K P img
        (writeAt ker (blobIdx (K * K) H W n (i * K + j) y x)
          (ker (blobIdx (K * K) H W n (i * K + j) y x) + t)))
      (fun c => img (blobIdx C H W n c (y + i - P) (x + j - P)) * t)
      hn hy hx
      (fun n1 c y1 x1 hy1 hx1 hne => cppForwardVal_congr_ker C H W K P img _ ker n1 c y1 x1
        (fun ch hch => writeAt_ne _ _ _ (fun he => by
          have hb := blobIdx_inj hch hy1 hx1 (mul_add_lt hiK hjK) hy hx he
          exact hne ⟨hb.1, hb.2.2.1, hb.2.2.2⟩)))
      (fun c => cppForwardVal_perturb C H W K P img ker n c y x i j t hy hx hiK hjK hiv hjv)]
    rw [Finset.mul_sum]
    apply Finset.sum_congr rfl
    intro c _
    ring

theorem cpp_backward_correct_witness :
    CPPBackward 1 1 1 1 1 0 (fun _ => 1) (fun _ => 3) (fun _ => 0)
        (blobIdx (1 * 1) 1 1 0 (0 * 1 + 0) 0 0)
      = ∑ c in Finset.range 1,
          (fun _ => (1 : ℤ)) (blobIdx 1 1 1 0 c 0 0) *
          (fun _ => (3 : ℤ)) (blobIdx 1 1 1 0 c (0 + 0 - 0) (0 + 0 - 0)) :=
  (cpp_backward_correct 1 1 1 1 1 0 (fun _ => 1) (fun _ => 3) (fun _ => 0) (fun _ => 5)
    0 0 0 0 0 2 (by decide) (by decide) (by decide) (by decide) (by decide)
    (by decide) (by decide)).1

/-- **C4**: the separable backward pass writes the two cross-dependent
gradient halves — `diff[n, j, y, x]` sums the channel-summed src·img
products over valid vertical offsets weighted by the vertical kernel values,
and `diff[n, K+i, y, x]` symmetrically weighted by the horizontal kernel
values — and each half equals the exact partial derivative of the separable
forward output with respect to its kernel element. -/
theorem sep_backward_correct (N C H W K P : ℕ) (src img ker diff : Buf)
    (n y x i j : ℕ) (t : ℤ)
    (hn : n < N) (hy : y < H) (hx : x < W)
    (hiK : i < K) (hjK : j < K) (hiv : inB P y H i) (hjv : inB P x W j) :
    SepCPPBackward N C H W K P src img ker diff (blobIdx (2 * K) H W n j y x)
      = (∑ i1 in Finset.range K, if inB P y H i1 then
          (∑ c in Finset.range C, src (blobIdx C H W n c y x) *
            img (blobIdx C H W n c (y + i1 - P) (x + j - P))) *
          ker (blobIdx (2 * K) H W n (K + i1) y x) else 0)
    ∧ SepCPPBackward N C H W K P src img ker diff (blobIdx (2 * K) H W n (K + i) y x)
      = (∑ j1 in Finset.range K, if inB P x W j1 then
          (∑ c in Finset.range C, src (blobIdx C H W n c y x) *
            img (blobIdx C H W n c (y + i - P) (x + j1 - P))) *
          ker (blobIdx (2 * K) H W n j1 y x) else 0)
    ∧ (∑ n1 in Finset.range N, ∑ c in Finset.range C, ∑ y1 in Finset.range H,
         ∑ x1 in Finset.range W,
         src (blobIdx C H W n1 c y1 x1) *
           (sepForwardVal C H W K P img
              (writeAt ker (blobIdx (2 * K) H W n j y x)
                (ker (blobIdx (2 * K) H W n j y x) + t)) n1 c y1 x1
            - sepForwardVal C H W K P img ker n1 c y1 x1))
      = t * (∑ i1 in Finset.range K, if inB P y H i1 then
          (∑ c in Finset.range C, src (blobIdx C H W n c y x) *
            img (blobIdx C H W n c (y + i1 - P) (x + j - P))) *
          ker (blobIdx (2 * K) H W n (K + i1) y x) else 0)
    ∧ (∑ n1 in Finset.range N, ∑ c in Finset.range C, ∑ y1 in Finset.range H,
         ∑ x1 in Finset.range W,
         src (blobIdx C H W n1 c y1 x1) *
           (sepForwardVal C H W K P img
              (writeAt ker (blobIdx (2 * K) H W n (K + i) y x)
                (ker (blobIdx (2 * K) H W n (K + i) y x) + t)) n1 c y1 x1
            - sepForwardVal C H W K P img ker n1 c y1 x1))
      = t * (∑ j1 in Finset.range K, if inB P x W j1 then
          (∑ c in Finset.range C, src (blobIdx C H W n c y x) *
            img (blobIdx C H W n c (y + i - P) (x + j1 - P))) *
          ker (blobIdx (2 * K) H W n j1 y x) else 0) := by
  refine ⟨?_, ?_, ?_, ?_⟩
  · rw [SepCPPBackward_writeH N C H W K P src img ker diff n y x j hn hy hx
      (mem_kerRun.mpr ⟨hjK, hjv⟩)]
    rw [kerRun_foldl_sum, zero_add]
    apply Finset.sum_congr rfl
    intro i1 _
    by_cases hc : inB P y H i1
    · rw [if_pos hc, if_pos hc, chanSum_eq_sum]
    · rw [if_neg hc, if_neg hc]
  · rw [SepCPPBackward_writeV N C H W K P src img ker diff n y x i hn hy hx
      (mem_kerRun.mpr ⟨hiK, hiv⟩)]
    rw [kerRun_foldl_sum, zero_add]
    apply Finset.sum_congr rfl
    intro j1 _
    by_cases hc : inB P x W j1
    · rw [if_pos hc, if_pos hc, chanSum_eq_sum]
    · rw [if_neg hc, if_neg hc]
  · rw [lsum_collapse N C H W src
      (sepForwardVal C H W K P img ker)
      (sepForwardVal C H W K P img
        (writeAt ker (blobIdx (2 * K) H W n j y x)
          (ker (blobIdx (2 * K) H W n j y x) + t)))
      (fun c => (∑ i1 in Finset.range K, if inB P y H i1 then
        img (blobIdx C H W n c (y + i1 - P) (x + j - P)) *
        ker (blobIdx (2 * K) H W n (K + i1) y x) else 0) * t)
      hn hy hx
      (fun n1 c y1 x1 hy1 hx1 hne => sepForwardVal_congr_ker C H W K P img _ ker n1 c y1 x1
        (fun ch hch => writeAt_ne _ _ _ (fun he => by
          have hb := blobIdx_inj hch hy1 hx1 (show j < 2 * K by omega) hy hx he
          exact hne ⟨hb.1, hb.2.2.1, hb.2.2.2⟩)))
      (fun c => sepForwardVal_perturbH C H W K P img ker n c y x j t hy hx hjK hjv)]
    exact lsum_weighted_swap C K _ t (inB P y H) _ _
  · rw [lsum_collapse N C H W src
      (sepForwardVal C H W K P img ker)
      (sepForwardVal C H W K P img
        (writeAt ker (blobIdx (2 * K) H W n (K + i) y x)
          (ker (blobIdx (2 * K) H W n (K + i) y x) + t)))
      (fun c => (∑ j1 in Finset.range K, if inB P x W j1 then
        img (blobIdx C H W n c (y + i - P) (x + j1 - P)) *
        ker (blobIdx (2 * K) H W n j1 y x) else 0) * t)
      hn hy hx
      (fun n1 c y1 x1 hy1 hx1 hne => sepForwardVal_congr_ker C H W K P img _ ker n1 c y1 x1
        (fun ch hch => writeAt_ne _ _ _ (fun he => by
          have hb := blobIdx_inj hch hy1 hx1 (show K + i < 2 * K by omega) hy hx he
          exact hne ⟨hb.1, hb.2.2.1, hb.2.2.2⟩)))
      (fun c => sepForwardVal_perturbV C H W K P img ker n c y x i t hy hx hiK hiv)]
    exact lsum_weighted_swap C K _ t (inB P x W) _ _

theorem sep_backward_correct_witness :
    SepCPPBackward 1 1 1 1 1 0 (fun _ => 1) (fun _ => 3) (fun _ => 5) (fun _ => 0)
        (blobIdx (2 * 1) 1 1 0 0 0 0)
      = ∑ i1 in Finset.range 1, if inB 0 0 1 i1 then
          (∑ c in Finset.range 1, (fun _ => (1 : ℤ)) (blobIdx 1 1 1 0 c 0 0) *
            (fun _ => (3 : ℤ)) (blobIdx 1 1 1 0 c (0 + i1 - 0) (0 + 0 - 0))) *
          (fun _ => (5 : ℤ)) (blobIdx (2 * 1) 1 1 0 (1 + i1) 0 0) else 0 :=
  (sep_backward_correct 1 1 1 1 1 0 (fun _ => 1) (fun _ => 3) (fun _ => 5) (fun _ => 0)
    0 0 0 0 0 2 (by decide) (by decide) (by decide) (by decide) (by decide)
    (by decide) (by decide)).1

/-- **C10**: gradient entries for out-of-bounds kernel offsets are never
assigned by either backward pass — they retain whatever values the gradient
buffer previously held. -/
theorem backward_out_of_bounds_untouched (N C H W K P : ℕ) (src img ker diffD diffS : Buf)
    (n y x i j : ℕ) (hy : y < H) (hx : x < W) (hiK : i < K) (hjK : j < K) :
    (¬(inB P y H i ∧ inB P x W j) →
      CPPBackward N C H W K P src img diffD (blobIdx (K * K) H W n (i * K + j) y x)
        = diffD (blobIdx (K * K) H W n (i * K + j) y x))
    ∧ (¬inB P x W j →
      SepCPPBackward N C H W K P src img ker diffS (blobIdx (2 * K) H W n j y x)
        = diffS (blobIdx (2 * K) H W n j y x))
    ∧ (¬inB P y H i →
      SepCPPBackward N C H W K P src img ker diffS (blobIdx (2 * K) H W n (K + i) y x)
        = diffS (blobIdx (2 * K) H W n (K + i) y x)) :=
  ⟨fun hinv => CPPBackward_untouched N C H W K P src img diffD n y x i j hy hx hiK hjK hinv,
   fun hinv => SepCPPBackward_untouchedH N C H W K P src img ker diffS n y x j hy hx hjK hinv,
   fun hinv => SepCPPBackward_untouchedV N C H W K P src img ker diffS n y x i hy hx hiK hinv⟩

theorem backward_out_of_bounds_untouched_witness :
    SepCPPBackward 1 1 1 1 3 1 (fun _ => 1) (fun _ => 3) (fun _ => 5) (fun _ => 7)
        (blobIdx (2 * 3) 1 1 0 0 0 0)
      = (fun _ => (7 : ℤ)) (blobIdx (2 * 3) 1 1 0 0 0 0) :=
  (backward_out_of_bounds_untouched 1 1 1 1 3 1 (fun _ => 1) (fun _ => 3) (fun _ => 5)
    (fun _ => 7) (fun _ => 7) 0 0 0 0 0 (by decide) (by decide) (by decide)
    (by decide)).2.1 (by decide)

/-! ## Shape validation (Reshape) -/

/-- The derived scalars and the output-blob shape produced by a successful
`Reshape` call. -/
structure LayerDims where
  batch_num : ℕ
  channels : ℕ
  kernel : ℕ
  padding : ℕ
  height : ℕ
  width : ℕ
  outShape : List ℕ
deriving DecidableEq

/-- `CPPLayer::Reshape` (cpp_layer.cpp, lines 20-52): the `CHECK_EQ`s in
source order; a failed check is fatal (modelled as `none`). The kernel-size
derivation `int kernel = (int)sqrt((float)B_input)` is modelled by the
exact integer square root `Nat.sqrt`; combined with the subsequent
`kernel*kernel == B_input` check this accepts exactly the same inputs.
Blob shapes are lists of axis extents; `shape(-1)`/`shape(-2)` are the last
and second-to-last entries. The output blob is reshaped like the image
blob (`ReshapeLike`). -/
def CPPReshape (img ker : List ℕ) : Option LayerDims :=
  if img.length = 4 then
    if img.length = ker.length then
      if img.getD 0 0 = ker.getD 0 0 then
        if Nat.sqrt (ker.getD 1 0) * Nat.sqrt (ker.getD 1 0) = ker.getD 1 0 then
          if Nat.sqrt (ker.getD 1 0) % 2 = 1 then
            if img.getD (img.length - 1) 0 = ker.getD (ker.length - 1) 0 then
              if img.getD (img.length - 2) 0 = ker.getD (ker.length - 2) 0 then
                some { batch_num := img.getD 0 0, channels := img.getD 1 0,
                       kernel := Nat.sqrt (ker.getD 1 0),
                       padding := (Nat.sqrt (ker.getD 1 0) - 1) / 2,
                       height := img.getD (img.length - 2) 0,
                       width := img.getD (img.length - 1) 0,
                       outShape := img }
              else none
            else none
          else none
        else none
      else none
    else none
  else none

/-- `SepCPPLayer::Reshape` (sepcpp_layer.cpp, lines 20-52): identical to the
dense validator except for the kernel-channel rule, `B_input % 2 == 0` and
`(B_input / 2) % 2 == 1` with `kernel = B_input / 2`. -/
def SepCPPReshape (img ker : List ℕ) : Option LayerDims :=
  if img.length = 4 then
    if img.length = ker.length then
      if img.getD 0 0 = ker.getD 0 0 then
        if ker.getD 1 0 % 2 = 0 then
          if (ker.getD 1 0 / 2) % 2 = 1 then
            if img.getD (img.length - 1) 0 = ker.getD (ker.length - 1) 0 then
              if img.getD (img.length - 2) 0 = ker.getD (ker.length - 2) 0 then
                some { batch_num := img.getD 0 0, channels := img.getD 1 0,
                       kernel := ker.getD 1 0 / 2,
                       padding := (ker.getD 1 0 / 2 - 1) / 2,
                       height := img.getD (img.length - 2) 0,
                       width := img.getD (img.length - 1) 0,
                       outShape := img }
              else none
            else none
          else none
        else none
      else none
    else none
  else none

theorem CPPReshape_isSome (img ker : List ℕ) :
    (CPPReshape img ker).isSome ↔
      img.length = 4 ∧ img.length = ker.length ∧ img.getD 0 0 = ker.getD 0 0 ∧
      Nat.sqrt (ker.getD 1 0) * Nat.sqrt (ker.getD 1 0) = ker.getD 1 0 ∧
      Nat.sqrt (ker.getD 1 0) % 2 = 1 ∧
      img.getD (img.length - 1) 0 = ker.getD (ker.length - 1) 0 ∧
      img.getD (img.length - 2) 0 = ker.getD (ker.length - 2) 0 := by
  unfold CPPReshape
  split_ifs with h1 h2 h3 h4 h5 h6 h7 <;> simp_all

theorem SepCPPReshape_isSome (img ker : List ℕ) :
    (SepCPPReshape img ker).isSome ↔
      img.length = 4 ∧ img.length = ker.length ∧ img.getD 0 0 = ker.getD 0 0 ∧
      ker.getD 1 0 % 2 = 0 ∧ (ker.getD 1 0 / 2) % 2 = 1 ∧
      img.getD (img.length - 1) 0 = ker.getD (ker.length - 1) 0 ∧
      img.getD (img.length - 2) 0 = ker.getD (ker.length - 2) 0 := by
  unfold SepCPPReshape
  split_ifs with h1 h2 h3 h4 h5 h6 h7 <;> simp_all

/-- **C5**: each validator succeeds iff both inputs have 4 axes, agree on
the batch and both spatial dimensions, and the kernel blob's channel count
satisfies the component's rule (PAC: a perfect square of an odd integer;
Sep-PAC: even with an odd half); on success the output shape is the image
shape and the derived scalars are set; on any violation it fails. -/
theorem reshape_correct (img ker : List ℕ) :
    ((CPPReshape img ker).isSome ↔
      img.length = 4 ∧ ker.length = 4 ∧ img.getD 0 0 = ker.getD 0 0 ∧
      img.getD 2 0 = ker.getD 2 0 ∧ img.getD 3 0 = ker.getD 3 0 ∧
      (∃ k, k % 2 = 1 ∧ k * k = ker.getD 1 0))
    ∧ (∀ d, CPPReshape img ker = some d →
        d.outShape = img ∧ d.batch_num = img.getD 0 0 ∧ d.channels = img.getD 1 0 ∧
        d.height = img.getD 2 0 ∧ d.width = img.getD 3 0 ∧
        d.kernel * d.kernel = ker.getD 1 0 ∧ d.kernel % 2 = 1 ∧
        d.padding = (d.kernel - 1) / 2)
    ∧ ((SepCPPReshape img ker).isSome ↔
      img.length = 4 ∧ ker.length = 4 ∧ img.getD 0 0 = ker.getD 0 0 ∧
      img.getD 2 0 = ker.getD 2 0 ∧ img.getD 3 0 = ker.getD 3 0 ∧
      ker.getD 1 0 % 2 = 0 ∧ (ker.getD 1 0 / 2) % 2 = 1)
    ∧ (∀ d, SepCPPReshape img ker = some d →
        d.outShape = img ∧ d.batch_num = img.getD 0 0 ∧ d.channels = img.getD 1 0 ∧
        d.height = img.getD 2 0 ∧ d.width = img.getD 3 0 ∧
        2 * d.kernel = ker.getD 1 0 ∧ d.kernel % 2 = 1 ∧
        d.padding = (d.kernel - 1) / 2) := by
  refine ⟨?_, ?_, ?_, ?_⟩
  · rw [CPPReshape_isSome]
    constructor
    · rintro ⟨h1, h2, h3, h4, h5, h6, h7⟩
      refine ⟨h1, by omega, h3, ?_, ?_, ⟨Nat.sqrt (ker.getD 1 0), h5, h4⟩⟩
      · rw [show img.length - 2 = 2 by omega, show ker.length - 2 = 2 by omega] at h7
        exact h7
      · rw [show img.length - 1 = 3 by omega, show ker.length - 1 = 3 by omega] at h6
        exact h6
    · rintro ⟨h1, h2, h3, h4, h5, ⟨k, hk1, hk2⟩⟩
      have hs : Nat.sqrt (ker.getD 1 0) = k := by rw [← hk2, Nat.sqrt_eq]
      refine ⟨h1, by omega, h3, by rw [hs, hk2], by rw [hs]; exact hk1, ?_, ?_⟩
      · rw [show img.length - 1 = 3 by omega, show ker.length - 1 = 3 by omega]
        exact h5
      · rw [show img.length - 2 = 2 by omega, show ker.length - 2 = 2 by omega]
        exact h4
  · unfold CPPReshape
    split_ifs with h1 h2 h3 h4 h5 h6 h7
    · intro d hd
      rw [Option.some_inj] at hd
      subst hd
      refine ⟨rfl, rfl, rfl, ?_, ?_, h4, h5, rfl⟩
      · show img.getD (img.length - 2) 0 = img.getD 2 0
        rw [show img.length - 2 = 2 by omega]
      · show img.getD (img.length - 1) 0 = img.getD 3 0
        rw [show img.length - 1 = 3 by omega]
    all_goals exact fun d hd => hd.elim
  · rw [SepCPPReshape_isSome]
    constructor
    · rintro ⟨h1, h2, h3, h4, h5, h6, h7⟩
      refine ⟨h1, by omega, h3, ?_, ?_, h4, h5⟩
      · rw [show img.length - 2 = 2 by omega, show ker.length - 2 = 2 by omega] at h7
        exact h7
      · rw [show img.length - 1 = 3 by omega, show ker.length - 1 = 3 by omega] at h6
        exact h6
    · rintro ⟨h1, h2, h3, h4, h5, h6, h7⟩
      refine ⟨h1, by omega, h3, h6, h7, ?_, ?_⟩
      · rw [show img.length - 1 = 3 by omega, show ker.length - 1 = 3 by omega]
        exact h5
      · rw [show img.length - 2 = 2 by omega, show ker.length - 2 = 2 by omega]
        exact h4
  · unfold SepCPPReshape
    split_ifs with h1 h2 h3 h4 h5 h6 h7
    · intro d hd
      rw [Option.some_inj] at hd
      subst hd
      refine ⟨rfl, rfl, rfl, ?_, ?_, by show 2 * (ker.getD 1 0 / 2) = ker.getD 1 0; omega, h5, rfl⟩
      · show img.getD (img.length - 2) 0 = img.getD 2 0
        rw [show img.length - 2 = 2 by omega]
      · show img.getD (img.length - 1) 0 = img.getD 3 0
        rw [show img.length - 1 = 3 by omega]
    all_goals exact fun d hd => hd.elim

theorem reshape_correct_witness :
    (CPPReshape [2, 3, 4, 4] [2, 9, 4, 4]).isSome ∧
    (SepCPPReshape [2, 3, 4, 4] [2, 6, 4, 4]).isSome :=
  ⟨(reshape_correct [2, 3, 4, 4] [2, 9, 4, 4]).1.mpr
      ⟨by decide, by decide, by decide, by decide, by decide, ⟨3, by decide, by decide⟩⟩,
   (reshape_correct [2, 3, 4, 4] [2, 6, 4, 4]).2.2.1.mpr
      ⟨by decide, by decide, by decide, by decide, by decide, by decide, by decide⟩⟩

/-! ## Layer-state wrappers: frame properties and the GPU stubs -/

/-- The buffers a layer call can reach: data and diff of `bottom[0]` (the
image blob), `bottom[1]` (the kernel blob) and `top[0]` (the output). -/
structure LayerState where
  imgData : Buf
  imgDiff : Buf
  kerData : Buf
  kerDiff : Buf
  outData : Buf
  outDiff : Buf

/-- `CPPLayer::Backward_cpu` at blob level: reads `top[0]->cpu_diff()` and
`bottom[0]->cpu_data()` and writes only `bottom[1]->mutable_cpu_diff()`;
the `propagate_down` flags are ignored by the source. -/
def CPPBackwardCall (N C H W K P : ℕ) (pd : Bool × Bool) (s : LayerState) : LayerState :=
  { s with kerDiff := CPPBackward N C H W K P s.outDiff s.imgData s.kerDiff }

/-- `SepCPPLayer::Backward_cpu` at blob level: additionally reads
`bottom[1]->cpu_data()`, still writing only `bottom[1]->mutable_cpu_diff()`. -/
def SepCPPBackwardCall (N C H W K P : ℕ) (pd : Bool × Bool) (s : LayerState) : LayerState :=
  { s with kerDiff := SepCPPBackward N C H W K P s.outDiff s.imgData s.kerData s.kerDiff }

/-- **C8**: both backward passes write only to the kernel blob's gradient
buffer; the image data, image gradient, kernel data, output data and the
upstream output gradient are left unchanged, regardless of the
`propagate_down` flags. The image gradient is never populated. -/
theorem backward_frame (N C H W K P : ℕ) (pd : Bool × Bool) (s : LayerState) :
    ((CPPBackwardCall N C H W K P pd s).imgData = s.imgData ∧
     (CPPBackwardCall N C H W K P pd s).imgDiff = s.imgDiff ∧
     (CPPBackwardCall N C H W K P pd s).kerData = s.kerData ∧
     (CPPBackwardCall N C H W K P pd s).outData = s.outData ∧
     (CPPBackwardCall N C H W K P pd s).outDiff = s.outDiff)
    ∧ ((SepCPPBackwardCall N C H W K P pd s).imgData = s.imgData ∧
       (SepCPPBackwardCall N C H W K P pd s).imgDiff = s.imgDiff ∧
       (SepCPPBackwardCall N C H W K P pd s).kerData = s.kerData ∧
       (SepCPPBackwardCall N C H W K P pd s).outData = s.outData ∧
       (SepCPPBackwardCall N C H W K P pd s).outDiff = s.outDiff) :=
  ⟨⟨rfl, rfl, rfl, rfl, rfl⟩, ⟨rfl, rfl, rfl, rfl, rfl⟩⟩

/-- The fatal error class of the host framework's `NOT_IMPLEMENTED`
(the spec's `UnsupportedOperationError`). -/
inductive CaffeError where
  | notImplemented
deriving DecidableEq

/-- `CPPLayer::Forward_gpu` (cpp_layer.hpp, lines 41-44): the body is
`NOT_IMPLEMENTED`, a fatal error; no numeric work happens and no buffer is
touched. -/
def CPPForward_gpu (s : LayerState) : CaffeError ⊕ LayerState :=
  Sum.inl CaffeError.notImplemented

/-- `CPPLayer::Backward_gpu` (cpp_layer.hpp, lines 45-48): likewise
`NOT_IMPLEMENTED`. -/
def CPPBackward_gpu (pd : Bool × Bool) (s : LayerState) : CaffeError ⊕ LayerState :=
  Sum.inl CaffeError.notImplemented

/-- **C9**: invoking the accelerated (GPU) forward or backward path of the
dense PAC component always raises the fatal not-implemented error and
performs no numeric work, for every input. -/
theorem gpu_not_implemented (s : LayerState) (pd : Bool × Bool) :
    CPPForward_gpu s = Sum.inl CaffeError.notImplemented ∧
    CPPBackward_gpu pd s = Sum.inl CaffeError.notImplemented :=
  ⟨rfl, rfl⟩

end CaffePAC
